import Mathlib

/-! Shallow embedding of the numeric core of the lussac spike-sorting library
(`lussac/utils/misc.py`): refractory-period violation and coincidence counting
with fractional border weights, contamination and cross-contamination
estimation, similarity matrices, gaussian kernel histograms and the FFT-domain
gaussian band-filter masks.

Spike trains are lists of integer sample indices.  Python floats are idealised
as rationals, except where a square root, exponential or Fourier transform
forces real numbers.  The two process-wide constants
`Utils.sampling_frequency` and `Utils.t_max` are passed explicitly as
parameters `sf` and `T`.  The library cumulative-distribution functions
`scipy.stats.binom.cdf` and `scipy.stats.norm.cdf` are passed as function
parameters. -/

namespace Lussac

/-- Triple of counters used by the counting loops of `misc.py`: plain hits,
hits exactly at the high border, hits exactly at the low border. -/
structure Counts where
  np : ℕ
  nh : ℕ
  nl : ℕ
deriving DecidableEq

/-- Increment the plain counter. -/
def Counts.bumpP (c : Counts) : Counts := ⟨c.np + 1, c.nh, c.nl⟩

/-- Increment the high-border counter. -/
def Counts.bumpH (c : Counts) : Counts := ⟨c.np, c.nh + 1, c.nl⟩

/-- Increment the low-border counter. -/
def Counts.bumpL (c : Counts) : Counts := ⟨c.np, c.nh, c.nl + 1⟩

/-- Componentwise sum of two counter triples. -/
def Counts.add (c d : Counts) : Counts := ⟨c.np + d.np, c.nh + d.nh, c.nl + d.nl⟩

/-- Weighted total `n + p_high * n_high + p_low * n_low`, the value returned by
the counting loops of `misc.py`. -/
def Counts.val (p_low p_high : ℚ) (c : Counts) : ℚ :=
  (c.np : ℚ) + p_high * c.nh + p_low * c.nl

/-- Embedding of `_get_border_probabilities` from `misc.py`: integer borders of
`max_time` and the probabilities that a spike pair at the border is closer
than `max_time`. -/
def get_border_probabilities (max_time : ℚ) : ℤ × ℤ × ℚ × ℚ :=
  let border_high : ℤ := ⌈max_time⌉
  let border_low : ℤ := ⌊max_time⌋
  let p_high : ℚ := 1/2 * (max_time - border_high + 1)^2
  let p_low : ℚ := 1/2 * (1 - (max_time - border_low)^2) + (max_time - border_low)
  let p_low : ℚ := if border_low = 0 then p_low - 1/2 * (-max_time + 1)^2 else p_low
  (border_low, border_high, p_low, p_high)

/-- The high-border probability of `_get_border_probabilities`, as a named
formula. -/
def pHigh (t : ℚ) : ℚ := 1/2 * (t - ⌈t⌉ + 1)^2

/-- The low-border probability of `_get_border_probabilities`, as a named
formula (with the `border_low == 0` correction folded in). -/
def pLow (t : ℚ) : ℚ :=
  (1/2 * (1 - (t - ⌊t⌋)^2) + (t - ⌊t⌋)) - if (⌊t⌋ : ℤ) = 0 then 1/2 * (1 - t)^2 else 0

lemma get_border_probabilities_eq (t : ℚ) :
    get_border_probabilities t = (⌊t⌋, ⌈t⌉, pLow t, pHigh t) := by
  by_cases h : (⌊t⌋ : ℤ) = 0 <;>
    simp only [get_border_probabilities, pLow, pHigh, h, if_true, if_false,
      reduceIte] <;> ring_nf

/-- Inner loop of `compute_nb_violations` in `misc.py`: starting from the
spike `t0`, scan the following spikes, breaking as soon as a difference
exceeds `border_high`, and classify each difference as plain, high-border or
low-border. -/
def violFrom (border_low border_high t0 : ℤ) : List ℤ → Counts
  | [] => ⟨0, 0, 0⟩
  | t :: ts =>
    if border_high < t - t0 then ⟨0, 0, 0⟩
    else if t - t0 = border_high then (violFrom border_low border_high t0 ts).bumpH
    else if t - t0 = border_low then (violFrom border_low border_high t0 ts).bumpL
    else (violFrom border_low border_high t0 ts).bumpP

/-- Outer loop of `compute_nb_violations` in `misc.py`: run the inner scan
from every spike of the train. -/
def violTails (border_low border_high : ℤ) : List ℤ → Counts
  | [] => ⟨0, 0, 0⟩
  | t :: ts => (violFrom border_low border_high t ts).add (violTails border_low border_high ts)

/-- Embedding of `compute_nb_violations` from `misc.py`: weighted number of
refractory-period violations of a spike train. -/
def compute_nb_violations (spike_train : List ℤ) (max_time : ℚ) : ℚ :=
  if max_time ≤ 0 then 0
  else
    match get_border_probabilities max_time with
    | (border_low, border_high, p_low, p_high) =>
      (violTails border_low border_high spike_train).val p_low p_high

/-- Inner loop of `compute_nb_coincidence` in `misc.py`: scan the second train
from the current shared pointer, counting pointer advances (`start_j += 1`)
and classifying each absolute difference; break as soon as the difference
falls below `-border_high`. -/
def coincScan (border_low border_high a : ℤ) : List ℤ → ℕ × Counts
  | [] => (0, ⟨0, 0, 0⟩)
  | b :: bs =>
    if border_high < a - b then
      ((coincScan border_low border_high a bs).1 + 1, (coincScan border_low border_high a bs).2)
    else if a - b < -border_high then (0, ⟨0, 0, 0⟩)
    else if |a - b| = border_high then
      ((coincScan border_low border_high a bs).1, (coincScan border_low border_high a bs).2.bumpH)
    else if |a - b| = border_low then
      ((coincScan border_low border_high a bs).1, (coincScan border_low border_high a bs).2.bumpL)
    else
      ((coincScan border_low border_high a bs).1, (coincScan border_low border_high a bs).2.bumpP)

/-- Outer loop of `compute_nb_coincidence` in `misc.py`: iterate over the
first train, carrying the monotone pointer `start_j` into the second train. -/
def coincLoop (border_low border_high : ℤ) (B : List ℤ) : List ℤ → ℕ → Counts
  | [], _ => ⟨0, 0, 0⟩
  | a :: as', start_j =>
    ((coincScan border_low border_high a (B.drop start_j)).2).add
      (coincLoop border_low border_high B as'
        (start_j + (coincScan border_low border_high a (B.drop start_j)).1))

/-- Embedding of `compute_nb_coincidence` from `misc.py`: weighted number of
coincident spikes between two spike trains. -/
def compute_nb_coincidence (spike_train1 spike_train2 : List ℤ) (max_time : ℚ) : ℚ :=
  if max_time ≤ 0 then 0
  else
    match get_border_probabilities max_time with
    | (border_low, border_high, p_low, p_high) =>
      (coincLoop border_low border_high spike_train2 spike_train1 0).val p_low p_high

/-- Weight the spec assigns to one ordered pair of `count_violations`: a
difference beyond the high border counts `0`, a difference exactly at the
high border counts `p_high`, exactly at the low border counts `p_low`, and a
strictly interior difference counts `1`. -/
def violWeight (t : ℚ) (d : ℤ) : ℚ :=
  if (⌈t⌉ : ℤ) < d then 0
  else if d = ⌈t⌉ then pHigh t
  else if d = ⌊t⌋ then pLow t
  else 1

/-- The spec's weighted count over all ordered pairs `i < j` of a spike
train. -/
def violPairSum (t : ℚ) : List ℤ → ℚ
  | [] => 0
  | x :: xs => (xs.map (fun y => violWeight t (y - x))).sum + violPairSum t xs

/-- Weight the spec assigns to one pair of `count_coincidences`, via the
absolute difference. -/
def coincWeight (t : ℚ) (d : ℤ) : ℚ :=
  if (⌈t⌉ : ℤ) < |d| then 0
  else if |d| = ⌈t⌉ then pHigh t
  else if |d| = ⌊t⌋ then pLow t
  else 1

/-- The spec's weighted count of `count_coincidences` over all pairs of the
two trains. -/
def coincPairSum (t : ℚ) (A B : List ℤ) : ℚ :=
  (A.map (fun a => (B.map (fun b => coincWeight t (a - b))).sum)).sum

/-- Counter triple contributed by one pair with difference `d`. -/
def pairKind (border_low border_high d : ℤ) : Counts :=
  if border_high < |d| then ⟨0, 0, 0⟩
  else if |d| = border_high then ⟨0, 1, 0⟩
  else if |d| = border_low then ⟨0, 0, 1⟩
  else ⟨1, 0, 0⟩

/-- Componentwise sum of a list of counter triples. -/
def countsSum (l : List Counts) : Counts := l.foldr Counts.add ⟨0, 0, 0⟩

/-- Embedding of `estimate_contamination` from `misc.py`.  The refractory
period `(t_c, t_r)` is given in milliseconds and converted to samples via the
sampling frequency `sf`; `T` is the total recording duration in samples. -/
noncomputable def estimate_contamination (sf T : ℚ) (spike_train : List ℤ)
    (refractory_period : ℚ × ℚ) : ℝ :=
  let t_c : ℚ := refractory_period.1 * (1/1000) * sf
  let t_r : ℚ := refractory_period.2 * (1/1000) * sf
  let n_v : ℚ := compute_nb_violations spike_train t_r
  let N : ℚ := spike_train.length
  let D : ℚ := 1 - n_v * (T - 2*N*t_c) / (N^2 * (t_r - t_c))
  if D < 0 then 1 else 1 - Real.sqrt D

/-- The spec's description of `estimate_contamination`, assembled from its
words: convert `(t_c, t_r)` to samples, count violations at `t_r`, form the
determinant `D` and return `1` when `D < 0`, else `1 - sqrt D`. -/
noncomputable def contaminationSpec (sf T : ℚ) (spike_train : List ℤ)
    (refractory_period : ℚ × ℚ) : ℝ :=
  let t_c : ℚ := refractory_period.1 * (1/1000) * sf
  let t_r : ℚ := refractory_period.2 * (1/1000) * sf
  let n_v : ℚ := compute_nb_violations spike_train t_r
  let N : ℚ := spike_train.length
  let D : ℚ := 1 - n_v * (T - 2*N*t_c) / (N^2 * (t_r - t_c))
  if D < 0 then 1 else 1 - Real.sqrt D

/-- Embedding of `estimate_cross_contamination` from `misc.py`.  The two
library cumulative-distribution functions `scipy.stats.binom.cdf` (arguments:
count, `n`, `p`) and `scipy.stats.norm.cdf` (arguments: value, mean, standard
deviation) are passed as the parameters `binom_cdf` and `norm_cdf`; the
estimation is an extended real so that the Python sentinel `-np.inf` is
representable as the bottom element. -/
noncomputable def estimate_cross_contamination (sf T : ℚ)
    (binom_cdf : ℚ → ℝ → ℚ → ℝ) (norm_cdf : ℚ → ℝ → ℝ → ℝ)
    (spike_train1 spike_train2 : List ℤ) (refractory_period : ℚ × ℚ)
    (limit : ℚ) : EReal × ℝ :=
  let N1 : ℚ := spike_train1.length
  let N2 : ℚ := spike_train2.length
  let C1 : ℝ := estimate_contamination sf T spike_train1 refractory_period
  let t_c : ℚ := refractory_period.1 * (1/1000) * sf
  let t_r : ℚ := refractory_period.2 * (1/1000) * sf
  let n_violations : ℚ := compute_nb_coincidence spike_train1 spike_train2 t_r
      - compute_nb_coincidence spike_train1 spike_train2 t_c
  let estimation : EReal :=
    if C1 = 1 then ⊥
    else ((1 - (((n_violations * T) / (2*N1*N2*t_r) : ℚ) - 1 : ℝ) / (C1 - 1) : ℝ) : EReal)
  let n : ℝ := (N1 : ℝ) * (N2 : ℝ) * ((1 - C1) * (limit : ℝ) + C1)
  let p : ℚ := 2 * t_r / T
  let p_value : ℝ :=
    if n * (p : ℝ) < 30 then 1 - binom_cdf n_violations n p
    else 1 - norm_cdf n_violations (n * (p : ℝ)) (Real.sqrt (n * (p : ℝ) * (1 - (p : ℝ))))
  (estimation, p_value)

/-- The spec's net coincidence count for cross-contamination: coincidences
within the refractory window minus coincidences within the censored window,
both in samples. -/
def crossNViolations (sf : ℚ) (t1 t2 : List ℤ) (rp : ℚ × ℚ) : ℚ :=
  compute_nb_coincidence t1 t2 (rp.2 * (1/1000) * sf)
    - compute_nb_coincidence t1 t2 (rp.1 * (1/1000) * sf)

/-- The spec's cross-contamination estimate formula for the case `C1 ≠ 1`:
`1 - ((n_violations T) / (2 N1 N2 t_r) - 1) / (C1 - 1)`. -/
noncomputable def crossContaminationSpec (sf T : ℚ) (t1 t2 : List ℤ) (rp : ℚ × ℚ) : ℝ :=
  1 - (((crossNViolations sf t1 t2 rp * T)
      / (2 * (t1.length : ℚ) * (t2.length : ℚ) * (rp.2 * (1/1000) * sf)) : ℚ) - 1 : ℝ)
    / (estimate_contamination sf T t1 rp - 1)

/-- The spec's binomial parameter `n = N1 N2 ((1 - C1) limit + C1)` for the
cross-contamination hypothesis test. -/
noncomputable def crossBinomN (sf T : ℚ) (t1 t2 : List ℤ) (rp : ℚ × ℚ) (limit : ℚ) : ℝ :=
  ((t1.length : ℚ) : ℝ) * ((t2.length : ℚ) : ℝ)
    * ((1 - estimate_contamination sf T t1 rp) * (limit : ℝ)
      + estimate_contamination sf T t1 rp)

/-- The spec's binomial parameter `p = 2 t_r / T` for the cross-contamination
hypothesis test. -/
def crossBinomP (sf T : ℚ) (rp : ℚ × ℚ) : ℚ := 2 * (rp.2 * (1/1000) * sf) / T

/-- Dense rational matrix with an explicit shape, for
`compute_similarity_matrix`. -/
structure QMatrix where
  rows : ℕ
  cols : ℕ
  entry : ℕ → ℕ → ℚ

/-- Embedding of `compute_similarity_matrix` from `misc.py`.  The Python
function asserts at entry that the coincidence matrix shape matches the two
spike-count vectors and fails synchronously otherwise; this is modelled by
returning `none` exactly when the assertion fails. -/
def compute_similarity_matrix (T : ℚ) (coincidence_matrix : QMatrix)
    (n_spikes1 n_spikes2 : List ℚ) (window : ℚ) : Option QMatrix :=
  if coincidence_matrix.rows = n_spikes1.length ∧ coincidence_matrix.cols = n_spikes2.length then
    some
      { rows := n_spikes1.length
        cols := n_spikes2.length
        entry := fun i j =>
          let minimum_n_spikes := min (n_spikes1.getD i 0) (n_spikes2.getD j 0)
          let similarity := coincidence_matrix.entry i j / minimum_n_spikes
          let expected := n_spikes1.getD i 0 * n_spikes2.getD j 0 * (2*window + 1) / T
              / minimum_n_spikes
          (similarity - expected) / (1 - expected) }
  else none

/-- Inner loop of `_gaussian_kernel` in `misc.py`: scan the sorted events from
the shared pointer, advancing the pointer past events below the truncation
window, breaking past its upper end, and accumulating the gaussian kernel. -/
noncomputable def kernScan (lo hi t sigma : ℚ) : List ℚ → ℕ × ℝ
  | [] => (0, 0)
  | e :: es =>
    if e < lo then
      ((kernScan lo hi t sigma es).1 + 1, (kernScan lo hi t sigma es).2)
    else if hi < e then (0, 0)
    else
      ((kernScan lo hi t sigma es).1,
        (kernScan lo hi t sigma es).2 + Real.exp (-(1/2) * (((e - t) / sigma : ℚ) : ℝ)^2))

/-- Outer loop of `_gaussian_kernel` in `misc.py`: one kernel sum per time
axis point, carrying the monotone pointer into the events. -/
noncomputable def kernLoop (events : List ℚ) (sigma truncate : ℚ) : List ℚ → ℕ → List ℝ
  | [], _ => []
  | t :: ts, start_j =>
    (kernScan (t - truncate * sigma) (t + truncate * sigma) t sigma (events.drop start_j)).2 ::
      kernLoop events sigma truncate ts
        (start_j + (kernScan (t - truncate * sigma) (t + truncate * sigma) t sigma
          (events.drop start_j)).1)

/-- Embedding of `_gaussian_kernel` from `misc.py`: kernel sums divided by the
gaussian normalisation. -/
noncomputable def gaussian_kernel (events t_axis : List ℚ) (sigma truncate : ℚ) : List ℝ :=
  (kernLoop events sigma truncate t_axis 0).map
    (fun v => v / ((sigma : ℝ) * Real.sqrt (2 * Real.pi)))

/-- Embedding of `gaussian_histogram` from `misc.py`: sort the events, with
`margin_reflect` synthesise mirrored events across each axis boundary that the
event extent reaches, then evaluate the kernel sums.  `np.min`/`np.max` and
the axis ends fail on empty arrays in Python, modelled as `none`. -/
noncomputable def gaussian_histogram (events t_axis : List ℚ) (sigma truncate : ℚ)
    (margin_reflect : Bool) : Option (List ℝ) :=
  let sorted_events := List.insertionSort (· ≤ ·) events
  if margin_reflect then
    if sorted_events = [] ∨ t_axis = [] then none
    else
      let t0 := t_axis.headI
      let t_last := t_axis.getLastI
      let events_low :=
        if t0 ≤ sorted_events.headI then
          ((sorted_events.takeWhile (fun e => decide (e ≤ t0 + truncate * sigma))).map
            (fun e => 2*t0 - e)).reverse
        else []
      let events_high :=
        if sorted_events.getLastI ≤ t_last then
          ((sorted_events.dropWhile (fun e => decide (e < t_last - truncate * sigma))).map
            (fun e => 2*t_last - e)).reverse
        else []
      some (gaussian_kernel (events_low ++ sorted_events ++ events_high) t_axis sigma truncate)
  else some (gaussian_kernel sorted_events t_axis sigma truncate)

/-- Gaussian probability density `scipy.stats.norm.pdf`. -/
noncomputable def norm_pdf (x : ℝ) : ℝ := Real.exp (-(x^2) / 2) / Real.sqrt (2 * Real.pi)

/-- Integer numerator of entry `k` of `np.fft.fftfreq(N, d)`: the frequency is
this value divided by `d * N`. -/
def fftfreq_int (N k : ℕ) : ℤ := if 2 * k < N then (k : ℤ) else (k : ℤ) - N

/-- Magnitude at index `j` of the length-`N` discrete Fourier transform of the
real signal `g` (zero-padded or truncated to `N` terms), as `np.abs(np.fft.fft(g, n=N))`. -/
noncomputable def dft_abs (g : ℕ → ℝ) (N j : ℕ) : ℝ :=
  Complex.abs (∑ k ∈ Finset.range N,
    (g k : ℂ) * Complex.exp (-(2 * Real.pi * Complex.I * j * k) / N))

/-- Embedding of `_create_fft_gaussian` from `misc.py`: the frequency-domain
gaussian mask for one cutoff frequency, as a function of the FFT bin index. -/
noncomputable def create_fft_gaussian (sf : ℚ) (N : ℕ) (cutoff_freq : ℚ) : ℕ → ℝ :=
  if sf / 8 < cutoff_freq then
    let sigma : ℝ := (sf : ℝ) / (2 * Real.pi * (cutoff_freq : ℝ))
    let limit : ℤ := round (6 * sigma) + 1
    let gaussian : ℕ → ℝ := fun k =>
      if (k : ℤ) ≤ 2 * limit then norm_pdf ((((k : ℤ) : ℝ) - (limit : ℝ)) / sigma) / sigma
      else 0
    fun j => dft_abs gaussian N j
  else
    fun j => norm_pdf (((fftfreq_int N j : ℝ) * (sf : ℝ) / (N : ℝ)) / (cutoff_freq : ℝ)) *
      Real.sqrt (2 * Real.pi)

/-- Following the spec's words: the time-domain route for the mask, a gaussian
with `sigma = sampling_frequency / (2 pi f)` truncated at six standard
deviations whose Fourier-transform magnitude is taken. -/
noncomputable def timeDomainGaussianMask (sf : ℚ) (N : ℕ) (f : ℚ) : ℕ → ℝ :=
  let sigma : ℝ := (sf : ℝ) / (2 * Real.pi * (f : ℝ))
  let limit : ℤ := round (6 * sigma) + 1
  let gaussian : ℕ → ℝ := fun k =>
    if (k : ℤ) ≤ 2 * limit then norm_pdf ((((k : ℤ) : ℝ) - (limit : ℝ)) / sigma) / sigma
    else 0
  fun j => dft_abs gaussian N j

/-- Following the spec's words: the frequency-domain route for the mask, a
gaussian evaluated directly on the FFT frequency axis, centered at `0` with
scale `f`. -/
noncomputable def freqDomainGaussianMask (sf : ℚ) (N : ℕ) (f : ℚ) : ℕ → ℝ :=
  fun j => norm_pdf (((fftfreq_int N j : ℝ) * (sf : ℝ) / (N : ℝ)) / (f : ℝ)) *
    Real.sqrt (2 * Real.pi)

lemma Counts.val_add (p_low p_high : ℚ) (c d : Counts) :
    (c.add d).val p_low p_high = c.val p_low p_high + d.val p_low p_high := by
  simp only [Counts.add, Counts.val]
  push_cast
  ring

lemma Counts.val_bumpH (p_low p_high : ℚ) (c : Counts) :
    c.bumpH.val p_low p_high = c.val p_low p_high + p_high := by
  simp only [Counts.bumpH, Counts.val]
  push_cast
  ring

lemma Counts.val_bumpL (p_low p_high : ℚ) (c : Counts) :
    c.bumpL.val p_low p_high = c.val p_low p_high + p_low := by
  simp only [Counts.bumpL, Counts.val]
  push_cast
  ring

lemma Counts.val_bumpP (p_low p_high : ℚ) (c : Counts) :
    c.bumpP.val p_low p_high = c.val p_low p_high + 1 := by
  simp only [Counts.bumpP, Counts.val]
  push_cast
  ring

lemma Counts.val_zero (p_low p_high : ℚ) :
    (Counts.val p_low p_high ⟨0, 0, 0⟩) = 0 := by
  simp [Counts.val]

lemma sum_violWeight_zero {t : ℚ} {t0 : ℤ} {l : List ℤ}
    (h : ∀ y ∈ l, (⌈t⌉ : ℤ) < y - t0) :
    (l.map (fun y => violWeight t (y - t0))).sum = 0 := by
  apply List.sum_eq_zero
  intro x hx
  obtain ⟨y, hy, rfl⟩ := List.mem_map.mp hx
  simp [violWeight, h y hy]

lemma violFrom_val (t : ℚ) (t0 : ℤ) {ts : List ℤ} (hs : ts.Sorted (· ≤ ·)) :
    (violFrom ⌊t⌋ ⌈t⌉ t0 ts).val (pLow t) (pHigh t)
      = (ts.map (fun y => violWeight t (y - t0))).sum := by
  induction hs with
  | nil => simp [violFrom, Counts.val]
  | @cons y ys hy _ ih =>
    simp only [List.map_cons, List.sum_cons]
    by_cases h1 : (⌈t⌉ : ℤ) < y - t0
    · rw [sum_violWeight_zero (fun y' hy' => lt_of_lt_of_le h1 (by have := hy y' hy'; omega))]
      simp [violFrom, h1, Counts.val, violWeight]
    · by_cases h2 : y - t0 = ⌈t⌉
      · simp only [violFrom, if_neg h1, if_pos h2, Counts.val_bumpH]
        rw [ih]
        simp only [violWeight, if_neg h1, if_pos h2]
        ring
      · by_cases h3 : y - t0 = ⌊t⌋
        · simp only [violFrom, if_neg h1, if_neg h2, if_pos h3, Counts.val_bumpL]
          rw [ih]
          simp only [violWeight, if_neg h1, if_neg h2, if_pos h3]
          ring
        · simp only [violFrom, if_neg h1, if_neg h2, if_neg h3, Counts.val_bumpP]
          rw [ih]
          simp only [violWeight, if_neg h1, if_neg h2, if_neg h3]
          ring

lemma violTails_val (t : ℚ) {l : List ℤ} (hs : l.Sorted (· ≤ ·)) :
    (violTails ⌊t⌋ ⌈t⌉ l).val (pLow t) (pHigh t) = violPairSum t l := by
  induction hs with
  | nil => simp [violTails, violPairSum, Counts.val]
  | @cons y ys _ hs' ih =>
    simp only [violTails, violPairSum, Counts.val_add]
    rw [violFrom_val t y hs', ih]

lemma Counts.add_zero_left (c : Counts) : Counts.add ⟨0, 0, 0⟩ c = c := by
  simp [Counts.add]

lemma Counts.add_bumpH (c : Counts) : Counts.add ⟨0, 1, 0⟩ c = c.bumpH := by
  simp [Counts.add, Counts.bumpH, Nat.add_comm]

lemma Counts.add_bumpL (c : Counts) : Counts.add ⟨0, 0, 1⟩ c = c.bumpL := by
  simp [Counts.add, Counts.bumpL, Nat.add_comm]

lemma Counts.add_bumpP (c : Counts) : Counts.add ⟨1, 0, 0⟩ c = c.bumpP := by
  simp [Counts.add, Counts.bumpP, Nat.add_comm]

lemma countsSum_nil : countsSum [] = ⟨0, 0, 0⟩ := rfl

lemma countsSum_cons (c : Counts) (l : List Counts) :
    countsSum (c :: l) = c.add (countsSum l) := rfl

lemma countsSum_zero {l : List Counts} (h : ∀ c ∈ l, c = (⟨0, 0, 0⟩ : Counts)) :
    countsSum l = ⟨0, 0, 0⟩ := by
  induction l with
  | nil => rfl
  | cons c cs ih =>
    rw [countsSum_cons, h c (List.mem_cons_self c cs),
      ih (fun x hx => h x (List.mem_cons_of_mem _ hx))]
    rfl

lemma countsSum_append (l₁ l₂ : List Counts) :
    countsSum (l₁ ++ l₂) = (countsSum l₁).add (countsSum l₂) := by
  induction l₁ with
  | nil => rw [List.nil_append, countsSum_nil, Counts.add_zero_left]
  | cons c cs ih =>
    rw [List.cons_append, countsSum_cons, countsSum_cons, ih]
    simp [Counts.add, Nat.add_assoc]

lemma coincScan_eq {border_low border_high : ℤ} (a : ℤ) (hbh : 0 ≤ border_high)
    {B : List ℤ} (hB : B.Sorted (· ≤ ·)) :
    coincScan border_low border_high a B =
      ((B.filter (fun b => decide (border_high < a - b))).length,
        countsSum (B.map (fun b => pairKind border_low border_high (a - b))))
    ∧ ∀ b ∈ B.take (coincScan border_low border_high a B).1, border_high < a - b := by
  induction hB with
  | nil => exact ⟨rfl, by simp [coincScan]⟩
  | @cons b bs hb _ ih =>
    by_cases h1 : border_high < a - b
    · have e1 : coincScan border_low border_high a (b :: bs) =
          ((coincScan border_low border_high a bs).1 + 1,
            (coincScan border_low border_high a bs).2) := by
        simp [coincScan, h1]
      have habs : |a - b| = a - b := abs_of_pos (by omega)
      refine ⟨?_, ?_⟩
      · rw [e1, ih.1]
        simp [List.filter_cons, h1, countsSum_cons, pairKind, habs, Counts.add_zero_left]
      · rw [e1]
        simp only [List.take_succ_cons]
        intro x hx
        rcases List.mem_cons.mp hx with rfl | hx'
        · exact h1
        · exact ih.2 x hx'
    · by_cases h2 : a - b < -border_high
      · have e1 : coincScan border_low border_high a (b :: bs) = (0, ⟨0, 0, 0⟩) := by
          simp [coincScan, h1, h2]
        have hall : ∀ x ∈ b :: bs, a - x < -border_high := by
          intro x hx
          rcases List.mem_cons.mp hx with rfl | hx'
          · exact h2
          · have := hb x hx'
            omega
        refine ⟨?_, ?_⟩
        · rw [e1]
          have hfil : (b :: bs).filter (fun x => decide (border_high < a - x)) = [] := by
            rw [List.filter_eq_nil_iff]
            intro x hx
            have := hall x hx
            simp only [decide_eq_true_eq]
            omega
          have hcs : countsSum ((b :: bs).map
              (fun x => pairKind border_low border_high (a - x))) = ⟨0, 0, 0⟩ := by
            apply countsSum_zero
            intro c hc
            obtain ⟨x, hx, rfl⟩ := List.mem_map.mp hc
            have hx' := hall x hx
            have habs : |a - x| = -(a - x) := abs_of_neg (by omega)
            simp [pairKind, habs]
            omega
          rw [hfil, hcs]
          rfl
        · rw [e1]
          simp
      · have hle : |a - b| ≤ border_high := abs_le.mpr (by omega)
        have hnlt : ¬ border_high < |a - b| := not_lt.mpr hle
        have hfil : (b :: bs).filter (fun x => decide (border_high < a - x)) =
            bs.filter (fun x => decide (border_high < a - x)) := by
          simp [List.filter_cons, h1]
        have hfilnil : bs.filter (fun x => decide (border_high < a - x)) = [] := by
          rw [List.filter_eq_nil_iff]
          intro x hx
          have := hb x hx
          simp only [decide_eq_true_eq]
          omega
        have hs0 : (coincScan border_low border_high a bs).1 = 0 := by
          rw [ih.1, hfilnil]
          rfl
        by_cases h3 : |a - b| = border_high
        · have e1 : coincScan border_low border_high a (b :: bs) =
              ((coincScan border_low border_high a bs).1,
                (coincScan border_low border_high a bs).2.bumpH) := by
            simp only [coincScan, if_neg h1, if_neg h2, if_pos h3]
          have hpk : pairKind border_low border_high (a - b) = ⟨0, 1, 0⟩ := by
            simp only [pairKind, if_neg hnlt, if_pos h3]
          refine ⟨?_, ?_⟩
          · rw [e1, ih.1, hfil, List.map_cons, countsSum_cons, hpk, Counts.add_bumpH]
          · rw [e1]
            simp only [hs0, List.take_zero]
            intro x hx
            exact absurd hx (List.not_mem_nil x)
        · by_cases h4 : |a - b| = border_low
          · have e1 : coincScan border_low border_high a (b :: bs) =
                ((coincScan border_low border_high a bs).1,
                  (coincScan border_low border_high a bs).2.bumpL) := by
              simp only [coincScan, if_neg h1, if_neg h2, if_neg h3, if_pos h4]
            have hpk : pairKind border_low border_high (a - b) = ⟨0, 0, 1⟩ := by
              simp only [pairKind, if_neg hnlt, if_neg h3, if_pos h4]
            refine ⟨?_, ?_⟩
            · rw [e1, ih.1, hfil, List.map_cons, countsSum_cons, hpk, Counts.add_bumpL]
            · rw [e1]
              simp only [hs0, List.take_zero]
              intro x hx
              exact absurd hx (List.not_mem_nil x)
          · have e1 : coincScan border_low border_high a (b :: bs) =
                ((coincScan border_low border_high a bs).1,
                  (coincScan border_low border_high a bs).2.bumpP) := by
              simp only [coincScan, if_neg h1, if_neg h2, if_neg h3, if_neg h4]
            have hpk : pairKind border_low border_high (a - b) = ⟨1, 0, 0⟩ := by
              simp only [pairKind, if_neg hnlt, if_neg h3, if_neg h4]
            refine ⟨?_, ?_⟩
            · rw [e1, ih.1, hfil, List.map_cons, countsSum_cons, hpk, Counts.add_bumpP]
            · rw [e1]
              simp only [hs0, List.take_zero]
              intro x hx
              exact absurd hx (List.not_mem_nil x)

lemma coincLoop_eq {border_low border_high : ℤ} (hbh : 0 ≤ border_high)
    {A B : List ℤ} (hA : A.Sorted (· ≤ ·)) (hB : B.Sorted (· ≤ ·)) :
    ∀ start_j : ℕ, (∀ b ∈ B.take start_j, ∀ x ∈ A, border_high < x - b) →
      coincLoop border_low border_high B A start_j =
        countsSum (A.map (fun x =>
          countsSum (B.map (fun b => pairKind border_low border_high (x - b))))) := by
  induction hA with
  | nil => intro start_j _; rfl
  | @cons a as ha _ ih =>
    intro start_j hinv
    have hdropSorted : (B.drop start_j).Sorted (· ≤ ·) :=
      List.Pairwise.sublist (List.drop_sublist _ _) hB
    obtain ⟨hscan, htake⟩ := coincScan_eq a hbh hdropSorted
    have e1 : coincLoop border_low border_high B (a :: as) start_j =
        ((coincScan border_low border_high a (B.drop start_j)).2).add
          (coincLoop border_low border_high B as
            (start_j + (coincScan border_low border_high a (B.drop start_j)).1)) := rfl
    rw [e1]
    have hXa : countsSum (B.map (fun b => pairKind border_low border_high (a - b))) =
        (coincScan border_low border_high a (B.drop start_j)).2 := by
      conv_lhs => rw [← List.take_append_drop start_j B]
      rw [List.map_append, countsSum_append]
      have hz : countsSum ((B.take start_j).map
          (fun b => pairKind border_low border_high (a - b))) = ⟨0, 0, 0⟩ := by
        apply countsSum_zero
        intro c hc
        obtain ⟨b, hb', rfl⟩ := List.mem_map.mp hc
        have hgt := hinv b hb' a (List.mem_cons_self _ _)
        have habs : |a - b| = a - b := abs_of_pos (by omega)
        simp [pairKind, habs, hgt]
      rw [hz, Counts.add_zero_left, hscan]
    have hinv' : ∀ b ∈ B.take (start_j + (coincScan border_low border_high a
        (B.drop start_j)).1), ∀ x ∈ as, border_high < x - b := by
      intro b hb x hx
      rw [List.take_add] at hb
      rcases List.mem_append.mp hb with hb1 | hb2
      · exact hinv b hb1 x (List.mem_cons_of_mem _ hx)
      · have h := htake b hb2
        have := ha x hx
        omega
    rw [ih _ hinv', List.map_cons, countsSum_cons, hXa]

lemma val_countsSum (p_low p_high : ℚ) (l : List Counts) :
    (countsSum l).val p_low p_high = (l.map (Counts.val p_low p_high)).sum := by
  induction l with
  | nil => simp [countsSum_nil, Counts.val]
  | cons c cs ih => rw [countsSum_cons, Counts.val_add, ih, List.map_cons, List.sum_cons]

lemma val_pairKind (t : ℚ) (d : ℤ) :
    (pairKind ⌊t⌋ ⌈t⌉ d).val (pLow t) (pHigh t) = coincWeight t d := by
  simp only [pairKind, coincWeight]
  split_ifs <;> simp [Counts.val]

lemma nb_coincidence_pairSum (t : ℚ) {A B : List ℤ}
    (hA : A.Sorted (· ≤ ·)) (hB : B.Sorted (· ≤ ·)) :
    compute_nb_coincidence A B t = if t ≤ 0 then 0 else coincPairSum t A B := by
  by_cases ht : t ≤ 0
  · rw [if_pos ht]
    unfold compute_nb_coincidence
    rw [if_pos ht]
  · rw [if_neg ht]
    unfold compute_nb_coincidence
    rw [if_neg ht, get_border_probabilities_eq]
    show (coincLoop ⌊t⌋ ⌈t⌉ B A 0).val (pLow t) (pHigh t) = coincPairSum t A B
    have hbh : (0 : ℤ) ≤ ⌈t⌉ := le_of_lt (Int.ceil_pos.mpr (not_le.mp ht))
    rw [coincLoop_eq hbh hA hB 0 (by simp), val_countsSum, List.map_map]
    unfold coincPairSum
    apply congrArg List.sum
    apply List.map_congr_left
    intro a _
    simp only [Function.comp_apply]
    rw [val_countsSum, List.map_map]
    apply congrArg List.sum
    apply List.map_congr_left
    intro b _
    exact val_pairKind t (a - b)

lemma sum_map_add_q (l : List ℤ) (f g : ℤ → ℚ) :
    (l.map (fun x => f x + g x)).sum = (l.map f).sum + (l.map g).sum := by
  induction l with
  | nil => simp
  | cons x xs ih =>
    simp only [List.map_cons, List.sum_cons, ih]
    ring

lemma pairSum_swap (f : ℤ → ℤ → ℚ) (A B : List ℤ) :
    (A.map (fun a => (B.map (fun b => f a b)).sum)).sum
      = (B.map (fun b => (A.map (fun a => f a b)).sum)).sum := by
  induction A with
  | nil =>
    simp only [List.map_nil, List.sum_nil]
    exact (List.sum_eq_zero (by simp)).symm
  | cons a as ih =>
    simp only [List.map_cons, List.sum_cons]
    rw [ih, ← sum_map_add_q]

lemma coincWeight_sub_comm (t : ℚ) (a b : ℤ) :
    coincWeight t (a - b) = coincWeight t (b - a) := by
  unfold coincWeight
  rw [abs_sub_comm]

lemma coincWeight_self (k : ℤ) (hk : 1 ≤ k) : coincWeight (k : ℚ) 0 = 1 := by
  have hceil : (⌈(k : ℚ)⌉ : ℤ) = k := Int.ceil_intCast k
  have hfloor : (⌊(k : ℚ)⌋ : ℤ) = k := Int.floor_intCast k
  simp only [coincWeight, hceil, hfloor, abs_zero]
  rw [if_neg (by omega), if_neg (by omega), if_neg (by omega)]

lemma coincWeight_far (k : ℤ) {d : ℤ} (hd : k < |d|) : coincWeight (k : ℚ) d = 0 := by
  have hceil : (⌈(k : ℚ)⌉ : ℤ) = k := Int.ceil_intCast k
  simp only [coincWeight, hceil]
  rw [if_pos hd]

lemma coincPairSum_self (k : ℤ) (hk : 1 ≤ k) {A : List ℤ}
    (hp : A.Pairwise (fun x y => x + k < y)) :
    coincPairSum (k : ℚ) A A = A.length := by
  induction hp with
  | nil => simp [coincPairSum]
  | @cons a as ha hp' ih =>
    have hfar : ∀ x ∈ as, coincWeight (k : ℚ) (a - x) = 0 := by
      intro x hx
      have := ha x hx
      exact coincWeight_far k (by rw [abs_sub_comm, abs_of_pos (by omega)]; omega)
    unfold coincPairSum
    simp only [List.map_cons, List.sum_cons, sub_self, coincWeight_self k hk]
    rw [List.sum_eq_zero (by
      intro x hx
      obtain ⟨y, hy, rfl⟩ := List.mem_map.mp hx
      exact hfar y hy)]
    rw [sum_map_add_q]
    have hz2 : (as.map (fun x => coincWeight (k : ℚ) (x - a))).sum = 0 := by
      apply List.sum_eq_zero
      intro x hx
      obtain ⟨y, hy, rfl⟩ := List.mem_map.mp hx
      have := ha y hy
      exact coincWeight_far k (by rw [abs_of_pos (by omega)]; omega)
    rw [hz2]
    unfold coincPairSum at ih
    rw [ih]
    simp only [List.length_cons, Nat.cast_add, Nat.cast_one]
    ring

lemma chain_gap_pairwise {k : ℤ} (hk : 1 ≤ k) {A : List ℤ}
    (h : A.Chain' (fun x y => x + k < y)) : A.Pairwise (fun x y => x + k < y) := by
  haveI : IsTrans ℤ (fun x y => x + k < y) := ⟨fun a b c hab hbc => by omega⟩
  exact List.chain'_iff_pairwise.mp h

lemma estimate_contamination_of_nv_zero (sf T : ℚ) (train : List ℤ) (rp : ℚ × ℚ)
    (h : compute_nb_violations train (rp.2 * (1/1000) * sf) = 0) :
    estimate_contamination sf T train rp = 0 := by
  simp only [estimate_contamination, h, zero_mul, zero_div, sub_zero]
  rw [if_neg (by norm_num)]
  rw [show ((1 : ℚ) : ℝ) = 1 from Rat.cast_one, Real.sqrt_one, sub_self]

lemma compute_nb_violations_eval (train : List ℤ) (t : ℚ) (bl bh : ℤ) (c : Counts)
    (ht : ¬ t ≤ 0) (hbl : ⌊t⌋ = bl) (hbh : ⌈t⌉ = bh) (hc : violTails bl bh train = c) :
    compute_nb_violations train t = (c.np : ℚ) + pHigh t * c.nh + pLow t * c.nl := by
  unfold compute_nb_violations
  rw [if_neg ht, get_border_probabilities_eq]
  show (violTails ⌊t⌋ ⌈t⌉ train).val (pLow t) (pHigh t) = _
  rw [hbl, hbh, hc]
  rfl

lemma compute_nb_coincidence_eval (A B : List ℤ) (t : ℚ) (bl bh : ℤ) (c : Counts)
    (ht : ¬ t ≤ 0) (hbl : ⌊t⌋ = bl) (hbh : ⌈t⌉ = bh) (hc : coincLoop bl bh B A 0 = c) :
    compute_nb_coincidence A B t = (c.np : ℚ) + pHigh t * c.nh + pLow t * c.nl := by
  unfold compute_nb_coincidence
  rw [if_neg ht, get_border_probabilities_eq]
  show (coincLoop ⌊t⌋ ⌈t⌉ B A 0).val (pLow t) (pHigh t) = _
  rw [hbl, hbh, hc]
  rfl

lemma estimate_contamination_eval (sf T : ℚ) (train : List ℤ) (rp : ℚ × ℚ) (D : ℚ)
    (hD : 1 - compute_nb_violations train (rp.2 * (1/1000) * sf)
        * (T - 2 * (train.length : ℚ) * (rp.1 * (1/1000) * sf))
        / ((train.length : ℚ)^2 * (rp.2 * (1/1000) * sf - rp.1 * (1/1000) * sf)) = D) :
    estimate_contamination sf T train rp = if D < 0 then 1 else 1 - Real.sqrt (D : ℝ) := by
  simp only [estimate_contamination]
  rw [hD]

/-- C1: `estimate_contamination` converts the refractory period from
milliseconds to samples via the sampling frequency, counts the violations at
`t_r`, forms `D = 1 - n_v (T - 2 N t_c) / (N^2 (t_r - t_c))` and returns `1`
when `D < 0` and `1 - sqrt D` otherwise; in particular, on the train
`[0, 50, 100, 150]` with refractory period `(0, 1)` ms at `30000` Hz it
returns `0`, for any recording duration. -/
theorem C1_estimate_contamination_formula (sf T : ℚ) (train : List ℤ)
    (rp : ℚ × ℚ) (hne : train ≠ []) (hrp : rp.1 < rp.2) :
    estimate_contamination sf T train rp = contaminationSpec sf T train rp ∧
      estimate_contamination 30000 T [0, 50, 100, 150] (0, 1) = 0 := by
  refine ⟨rfl, ?_⟩
  apply estimate_contamination_of_nv_zero
  rw [show (((0 : ℚ), (1 : ℚ)).2 * (1/1000) * 30000 : ℚ) = 30 by norm_num]
  rw [compute_nb_violations_eval [0, 50, 100, 150] 30 30 30 ⟨0, 0, 0⟩ (by norm_num)
    (by norm_num) (by norm_num) (by decide)]
  norm_num

theorem C1_estimate_contamination_formula_witness :
    estimate_contamination 1 1 [0] (0, 1) = contaminationSpec 1 1 [0] (0, 1) ∧
      estimate_contamination 30000 1 [0, 50, 100, 150] (0, 1) = 0 :=
  C1_estimate_contamination_formula 1 1 [0] (0, 1) (by decide) (by norm_num)

/-- C2: for a sorted non-negative spike train, `compute_nb_violations`
returns `0` when `max_time ≤ 0` and otherwise the weighted count over all
ordered pairs `i < j`, in which a strictly interior difference counts `1`, a
difference exactly at the ceiling counts `p_high` and a difference exactly at
the floor counts `p_low`, with `(1/2)(1 - max_time)^2` subtracted from
`p_low` when the floor is `0`. -/
theorem C2_nb_violations_pair_characterisation (train : List ℤ) (max_time : ℚ)
    (hs : train.Sorted (· ≤ ·)) (hnn : ∀ s ∈ train, 0 ≤ s) :
    compute_nb_violations train max_time =
      if max_time ≤ 0 then 0 else violPairSum max_time train := by
  by_cases ht : max_time ≤ 0
  · rw [if_pos ht]
    unfold compute_nb_violations
    rw [if_pos ht]
  · rw [if_neg ht]
    unfold compute_nb_violations
    rw [if_neg ht, get_border_probabilities_eq]
    show (violTails ⌊max_time⌋ ⌈max_time⌉ train).val (pLow max_time) (pHigh max_time) = _
    exact violTails_val max_time hs

theorem C2_nb_violations_pair_characterisation_witness :
    compute_nb_violations [0, 2] (3/2) =
      if (3/2 : ℚ) ≤ 0 then 0 else violPairSum (3/2) [0, 2] :=
  C2_nb_violations_pair_characterisation [0, 2] (3/2) (by decide) (by decide)

/-- C3: `estimate_cross_contamination` computes the net coincidences between
the refractory and censored windows and the reference contamination `C1`, and
returns the estimate `1 - ((n_violations T)/(2 N1 N2 t_r) - 1)/(C1 - 1)` when
`C1 ≠ 1` and the sentinel minus infinity (the bottom extended real) when
`C1 = 1`, an ordinary value rather than an error in both cases. -/
theorem C3_cross_contamination_estimate (sf T : ℚ) (binom_cdf : ℚ → ℝ → ℚ → ℝ)
    (norm_cdf : ℚ → ℝ → ℝ → ℝ) (t1 t2 : List ℤ) (rp : ℚ × ℚ) (limit : ℚ)
    (hne : t1 ≠ []) (hrp : rp.1 < rp.2) :
    (estimate_contamination sf T t1 rp ≠ 1 →
      (estimate_cross_contamination sf T binom_cdf norm_cdf t1 t2 rp limit).1 =
        ((crossContaminationSpec sf T t1 t2 rp : ℝ) : EReal)) ∧
    (estimate_contamination sf T t1 rp = 1 →
      (estimate_cross_contamination sf T binom_cdf norm_cdf t1 t2 rp limit).1 = ⊥) := by
  constructor
  · intro h
    simp only [estimate_cross_contamination, crossContaminationSpec, crossNViolations,
      if_neg h]
  · intro h
    simp only [estimate_cross_contamination, if_pos h]

theorem C3_cross_contamination_estimate_witness :
    (estimate_cross_contamination 1000 1000 (fun _ _ _ => 0) (fun _ _ _ => 0)
        [0] [0] (0, 1) (3/10)).1 =
      ((crossContaminationSpec 1000 1000 [0] [0] (0, 1) : ℝ) : EReal) :=
  (C3_cross_contamination_estimate 1000 1000 (fun _ _ _ => 0) (fun _ _ _ => 0)
      [0] [0] (0, 1) (3/10) (by decide) (by norm_num)).1
    (by
      have h0 : estimate_contamination 1000 1000 [0] (0, 1) = 0 := by
        apply estimate_contamination_of_nv_zero
        rw [show (((0 : ℚ), (1 : ℚ)).2 * (1/1000) * 1000 : ℚ) = 1 by norm_num]
        rw [compute_nb_violations_eval [0] 1 1 1 ⟨0, 0, 0⟩ (by norm_num) (by norm_num)
          (by norm_num) (by decide)]
        norm_num
      rw [h0]
      norm_num)

/-- C4: in `estimate_cross_contamination`, with
`n = N1 N2 ((1 - C1) limit + C1)` and `p = 2 t_r / T`, the returned p-value
is the exact binomial survival probability `1 - BinomCDF(n_violations; n, p)`
exactly when `n p < 30`, and the normal approximation
`1 - NormalCDF(n_violations; n p, sqrt(n p (1 - p)))` otherwise. -/
theorem C4_cross_contamination_p_value (sf T : ℚ) (binom_cdf : ℚ → ℝ → ℚ → ℝ)
    (norm_cdf : ℚ → ℝ → ℝ → ℝ) (t1 t2 : List ℤ) (rp : ℚ × ℚ) (limit : ℚ) :
    (crossBinomN sf T t1 t2 rp limit * ((crossBinomP sf T rp : ℚ) : ℝ) < 30 →
      (estimate_cross_contamination sf T binom_cdf norm_cdf t1 t2 rp limit).2 =
        1 - binom_cdf (crossNViolations sf t1 t2 rp)
          (crossBinomN sf T t1 t2 rp limit) (crossBinomP sf T rp)) ∧
    (¬ crossBinomN sf T t1 t2 rp limit * ((crossBinomP sf T rp : ℚ) : ℝ) < 30 →
      (estimate_cross_contamination sf T binom_cdf norm_cdf t1 t2 rp limit).2 =
        1 - norm_cdf (crossNViolations sf t1 t2 rp)
          (crossBinomN sf T t1 t2 rp limit * ((crossBinomP sf T rp : ℚ) : ℝ))
          (Real.sqrt (crossBinomN sf T t1 t2 rp limit * ((crossBinomP sf T rp : ℚ) : ℝ)
            * (1 - ((crossBinomP sf T rp : ℚ) : ℝ))))) := by
  constructor
  · intro h
    simp only [crossBinomN, crossBinomP] at h
    simp only [estimate_cross_contamination, crossBinomN, crossBinomP, crossNViolations,
      if_pos h]
  · intro h
    simp only [crossBinomN, crossBinomP] at h
    simp only [estimate_cross_contamination, crossBinomN, crossBinomP, crossNViolations,
      if_neg h]

theorem C4_cross_contamination_p_value_witness :
    (estimate_cross_contamination 1000 1000 (fun _ _ _ => 0) (fun _ _ _ => 0)
        [0] [0] (0, 1) (3/10)).2 = 1 - (0 : ℝ) :=
  (C4_cross_contamination_p_value 1000 1000 (fun _ _ _ => 0) (fun _ _ _ => 0)
      [0] [0] (0, 1) (3/10)).1
    (by
      have h0 : estimate_contamination 1000 1000 [0] (0, 1) = 0 := by
        apply estimate_contamination_of_nv_zero
        rw [show (((0 : ℚ), (1 : ℚ)).2 * (1/1000) * 1000 : ℚ) = 1 by norm_num]
        rw [compute_nb_violations_eval [0] 1 1 1 ⟨0, 0, 0⟩ (by norm_num) (by norm_num)
          (by norm_num) (by decide)]
        norm_num
      simp only [crossBinomN, crossBinomP, h0]
      norm_num)

/-- C5: `compute_nb_coincidence` is symmetric in its two sorted spike-train
arguments for every non-negative window, despite the asymmetric two-pointer
sweep. -/
theorem C5_nb_coincidence_comm (A B : List ℤ) (w : ℚ)
    (hA : A.Sorted (· ≤ ·)) (hB : B.Sorted (· ≤ ·)) (hw : 0 ≤ w) :
    compute_nb_coincidence A B w = compute_nb_coincidence B A w := by
  rw [nb_coincidence_pairSum w hA hB, nb_coincidence_pairSum w hB hA]
  by_cases hw0 : w ≤ 0
  · rw [if_pos hw0, if_pos hw0]
  · rw [if_neg hw0, if_neg hw0]
    unfold coincPairSum
    rw [pairSum_swap]
    apply congrArg List.sum
    apply List.map_congr_left
    intro b _
    apply congrArg List.sum
    apply List.map_congr_left
    intro a _
    exact coincWeight_sub_comm w a b

theorem C5_nb_coincidence_comm_witness :
    compute_nb_coincidence [0, 3] [1] 1 = compute_nb_coincidence [1] [0, 3] 1 :=
  C5_nb_coincidence_comm [0, 3] [1] 1 (by decide) (by decide) (by norm_num)

/-- C6: the claimed range invariant fails: with sampling frequency `1000` Hz,
recording duration `10` samples, the valid strictly ascending train
`[0, 1, 2, 3, 4, 5]` and refractory period `(1, 2)` ms (so `t_c = 1` and
`t_r = 2` samples), the weighted violation count is `7`, the determinant is
`D = 25/18 > 1`, and `estimate_contamination` returns the negative value
`1 - sqrt(25/18)`, outside the `[0, 1]` range promised by its docstring. -/
theorem C6_contamination_below_zero :
    estimate_contamination 1000 10 [0, 1, 2, 3, 4, 5] (1, 2) < 0 := by
  have hv : compute_nb_violations [0, 1, 2, 3, 4, 5]
      (((1 : ℚ), (2 : ℚ)).2 * (1/1000) * 1000) = 7 := by
    rw [show (((1 : ℚ), (2 : ℚ)).2 * (1/1000) * 1000 : ℚ) = 2 by norm_num]
    rw [compute_nb_violations_eval [0, 1, 2, 3, 4, 5] 2 2 2 ⟨5, 4, 0⟩ (by norm_num)
      (by norm_num) (by norm_num) (by decide)]
    rw [show pHigh 2 = 1/2 by simp only [pHigh]; norm_num]
    norm_num
  rw [estimate_contamination_eval 1000 10 [0, 1, 2, 3, 4, 5] (1, 2) (25/18)
    (by rw [hv]; norm_num)]
  rw [if_neg (by norm_num)]
  have h1 : (1 : ℝ) < Real.sqrt ((25/18 : ℚ) : ℝ) := by
    rw [Real.lt_sqrt (by norm_num)]
    push_cast
    norm_num
  linarith

/-- C7 counterexample: for `A = [0, 2]` and the window `1/2`, strictly below
the minimum inter-spike gap `2`, the self-coincidence count is `3/2` rather
than `len(A) = 2`: each zero-difference self pair sits exactly on the low
border `0` and receives the fractional weight `p_low = 3/4`. -/
theorem C7_self_coincidence_counterexample :
    (1/2 : ℚ) < 2 ∧ compute_nb_coincidence [0, 2] [0, 2] (1/2) ≠ 2 := by
  constructor
  · norm_num
  · rw [compute_nb_coincidence_eval [0, 2] [0, 2] (1/2) 0 1 ⟨0, 0, 2⟩ (by norm_num)
      (by rw [Int.floor_eq_iff] <;> norm_num) (by rw [Int.ceil_eq_iff] <;> norm_num)
      (by decide)]
    rw [show pLow (1/2) = 3/4 by simp only [pLow]; norm_num]
    norm_num

/-- C7 amended: for an integer window `w ≥ 1` strictly below every
inter-spike gap of a strictly ascending train, the self-coincidence count
does equal the train length: every self pair then lies strictly inside the
window and counts exactly `1`, and every other pair lies strictly outside. -/
theorem C7_self_coincidence_integer_window (A : List ℤ) (k : ℤ) (hk : 1 ≤ k)
    (hgap : A.Chain' (fun x y => x + k < y)) :
    compute_nb_coincidence A A (k : ℚ) = A.length := by
  have hp := chain_gap_pairwise hk hgap
  have hs : A.Sorted (· ≤ ·) := hp.imp (fun h => by omega)
  have hk0 : (0 : ℚ) < (k : ℚ) := by exact_mod_cast (by omega : (0 : ℤ) < k)
  rw [nb_coincidence_pairSum (k : ℚ) hs hs, if_neg (not_le.mpr hk0)]
  exact coincPairSum_self k hk hp

theorem C7_self_coincidence_integer_window_witness :
    compute_nb_coincidence [0, 2, 4] [0, 2, 4] ((1 : ℤ) : ℚ) =
      (([0, 2, 4] : List ℤ).length : ℚ) :=
  C7_self_coincidence_integer_window [0, 2, 4] 1 (by norm_num)
    (by simp only [List.chain'_cons, List.chain'_singleton, and_true]; omega)

/-- C8: the frequency-domain gaussian mask of the band filter is built by the
time-domain route (a gaussian with `sigma = sf/(2 pi f)` truncated at six
standard deviations, magnitude of its own Fourier transform) exactly when the
cutoff satisfies `f > sf / 8`, and otherwise by evaluating a gaussian
directly on the FFT frequency axis, centered at `0` with scale `f`. -/
theorem C8_fft_gaussian_mask (sf : ℚ) (N : ℕ) (f : ℚ) :
    (sf / 8 < f → create_fft_gaussian sf N f = timeDomainGaussianMask sf N f) ∧
    (¬ sf / 8 < f → create_fft_gaussian sf N f = freqDomainGaussianMask sf N f) := by
  constructor
  · intro h
    simp only [create_fft_gaussian, timeDomainGaussianMask, if_pos h]
  · intro h
    simp only [create_fft_gaussian, freqDomainGaussianMask, if_neg h]
    rfl

theorem C8_fft_gaussian_mask_witness :
    create_fft_gaussian 8 4 2 = timeDomainGaussianMask 8 4 2 :=
  (C8_fft_gaussian_mask 8 4 2).1 (by norm_num)

/-- C9 counterexample: `estimate_contamination` performs no entry validation:
fed the invalid refractory period `(2, 1)` ms, whose censored period exceeds
the refractory period, it silently returns the ordinary value `0` instead of
failing immediately. -/
theorem C9_no_entry_validation_counterexample :
    estimate_contamination 1000 1000 [0, 100] (2, 1) = 0 := by
  apply estimate_contamination_of_nv_zero
  rw [show (((2 : ℚ), (1 : ℚ)).2 * (1/1000) * 1000 : ℚ) = 1 by norm_num]
  rw [compute_nb_violations_eval [0, 100] 1 1 1 ⟨0, 0, 0⟩ (by norm_num) (by norm_num)
    (by norm_num) (by decide)]
  norm_num

/-- C9 amended: only `compute_similarity_matrix` validates its input at entry
(the dimension assertion, modelled as returning `none`), failing synchronously
before any computation; the spike-train statistics accept `t_c > t_r` without
any check and return an ordinary numeric value. -/
theorem C9_entry_validation_amended (T : ℚ) (C : QMatrix) (n1 n2 : List ℚ) (w : ℚ)
    (h : C.rows ≠ n1.length ∨ C.cols ≠ n2.length) :
    compute_similarity_matrix T C n1 n2 w = none ∧
      estimate_contamination 2000 1000 [0, 100] (2, 1) = 0 := by
  constructor
  · unfold compute_similarity_matrix
    rw [if_neg (by tauto)]
  · apply estimate_contamination_of_nv_zero
    rw [show (((2 : ℚ), (1 : ℚ)).2 * (1/1000) * 2000 : ℚ) = 2 by norm_num]
    rw [compute_nb_violations_eval [0, 100] 2 2 2 ⟨0, 0, 0⟩ (by norm_num) (by norm_num)
      (by norm_num) (by decide)]
    norm_num

theorem C9_entry_validation_amended_witness :
    compute_similarity_matrix 100 ⟨1, 1, fun _ _ => 0⟩ [] [0] 0 = none ∧
      estimate_contamination 2000 1000 [0, 100] (2, 1) = 0 :=
  C9_entry_validation_amended 100 ⟨1, 1, fun _ _ => 0⟩ [] [0] 0 (Or.inl (by simp))

/-- C10: `gaussian_histogram` sorts its events before any other processing,
so its output is exactly the same for every permutation of the events array:
the events need not be supplied in sorted order. -/
theorem C10_gaussian_histogram_perm (events1 events2 t_axis : List ℚ)
    (sigma truncate : ℚ) (margin_reflect : Bool)
    (hperm : events1.Perm events2) (haxis : t_axis.Sorted (· ≤ ·))
    (hsigma : 0 < sigma) :
    gaussian_histogram events1 t_axis sigma truncate margin_reflect =
      gaussian_histogram events2 t_axis sigma truncate margin_reflect := by
  have hsort : List.insertionSort (· ≤ ·) events1 = List.insertionSort (· ≤ ·) events2 :=
    List.eq_of_perm_of_sorted
      ((List.perm_insertionSort _ _).trans (hperm.trans (List.perm_insertionSort _ _).symm))
      (List.sorted_insertionSort _ _) (List.sorted_insertionSort _ _)
  unfold gaussian_histogram
  rw [hsort]

theorem C10_gaussian_histogram_perm_witness :
    gaussian_histogram [3, 1] [0, 1] 1 5 false = gaussian_histogram [1, 3] [0, 1] 1 5 false :=
  C10_gaussian_histogram_perm [3, 1] [1, 3] [0, 1] 1 5 false (by decide) (by decide)
    (by norm_num)

end Lussac
